import Mathlib

/-!
Verification development for the postgres-schema-builder repository.

The Lean definitions below are shallow embeddings of the repository's
TypeScript sources:

* `src/src/database-schema.ts` — the migration coordinator (`DatabaseSchema`
  with `init`, `migrateToVersion`, `migrateLatest`, `getVersion`,
  `getCurrentVersionAndLockSchema`) and the schema-diff helper
  `addRequiredColumn`;
* `src/src/index.ts` (the `sql.ts` part) — the DDL generator (`SQL.createTable`,
  `SQL.createIndex`, `prepareCreateColumnStatement`,
  `prepareForeignKeyConstraintStatements`, `collectForeignKeyConstraints`,
  `mapUpdateDeleteRule`).

Database effects are modelled by explicit state passing: the persisted
`schema_management` ledger row (`version`, `locked`) together with the
process-local `version` counter and `isInitialized` flag form a `MigState`.
Caller-supplied migration step functions are opaque to the coordinator, so a
step's execution is recorded in a run log (`applied`) instead of being
interpreted.  JavaScript peculiarities that matter are kept: the truthiness
test `if (currentVersion)`, the comparator-less `Array.prototype.sort` in
`migrateLatest`, and the substring match on error messages in `init`.
-/

namespace PSB

/-! ### Substring infrastructure

Executable substring containment on `List Char`, used both for the
`err.message.indexOf(...)` check of `init` and for stating which fragments the
generated DDL text contains. -/

/-- Whether `n` is a prefix of `h`: `hasPrefixCL n h` is true when the character list `n` is a prefix of `h`. -/
def hasPrefixCL : List Char → List Char → Bool
  | [], _ => true
  | _ :: _, [] => false
  | a :: as, b :: bs => a == b && hasPrefixCL as bs

/-- Whether `n` occurs in `h`: `containsCL n h` is true when `n` occurs contiguously inside `h`. -/
def containsCL (n : List Char) : List Char → Bool
  | [] => hasPrefixCL n []
  | b :: bs => hasPrefixCL n (b :: bs) || containsCL n bs

/-- Boolean substring test on strings, the model of JavaScript's
`haystack.indexOf(needle) !== -1`. -/
def strContainsB (n h : String) : Bool := containsCL n.data h.data

/-- Occurrence as a proposition: `strOccurs n h` holds when the string `n` occurs contiguously inside `h`. -/
def strOccurs (n h : String) : Prop := ∃ a b : List Char, h.data = a ++ n.data ++ b

/-- JavaScript's `[...].join(sep)`: parts joined by a separator. -/
def joinSep (sep : String) : List String → String
  | [] => ""
  | [p] => p
  | p :: q :: ps => p ++ sep ++ joinSep sep (q :: ps)

/-! ### The migration coordinator (`src/src/database-schema.ts`)

The persisted state is the `schema_management` row for the one schema name the
coordinator manages (`version`, `locked`); `row = none` models the row being
absent.  The process-local mutable variables `version` and `isInitialized` of
the `DatabaseSchema` closure are the other two fields, and `applied` is the run
log of migration step versions whose `up` function was invoked. -/

/-- The persisted ledger row of the `schema_management` table
(the `version` and `locked` columns) for the managed schema name. -/
structure LedgerRow where
  version : Nat
  locked : Bool
deriving DecidableEq

/-- The whole state a `DatabaseSchema` instance acts on: the persisted ledger
row, the process-local `version` counter, the process-local `isInitialized`
flag, and the log of executed migration steps. -/
structure MigState where
  row : Option LedgerRow
  localVersion : Nat
  isInitialized : Bool
  applied : List Nat
deriving DecidableEq

/-- Model of `getVersion` (`database-schema.ts` line 193): the process-local counter. -/
def getVersion (s : MigState) : Nat := s.localVersion

/-- The `UPDATE schema_management SET locked = $1 WHERE name=$2` query
(`setSchemaLockQuery`): a no-op when the row is absent. -/
def setSchemaLock (locked : Bool) (s : MigState) : MigState :=
  { s with row := s.row.map fun r => ⟨r.version, locked⟩ }

/-- Model of `updateSchemaVersionQuery`: `UPDATE` of the `version` column by name. -/
def updateSchemaVersion (newVersion : Nat) (s : MigState) : MigState :=
  { s with row := s.row.map fun r => ⟨newVersion, r.locked⟩ }

/-- Model of `getCurrentVersionAndLockSchema` (lines 125-136): lock the ledger table,
read the row; when exactly one row exists and its `locked` flag is false, set
`locked = true` and return the stored version, otherwise return `null`
(modelled as `none`). -/
def getCurrentVersionAndLockSchema (s : MigState) : MigState × Option Nat :=
  match s.row with
  | none => (s, none)
  | some r =>
    if r.locked then (s, none)
    else (setSchemaLock true s, some r.version)

/-- One iteration of `migrateToVersion`'s loop (lines 146-180): the body of
`client.transaction` for version `newVersion`, together with the commit.

The migration set is the list of version keys of the `migrations` map; running
a step appends its version to the `applied` log (step functions are
caller-supplied and opaque to the coordinator, and the claims under proof track
only which steps ran).

`database-client.ts` is not part of the sources; per the specification the
lock-release performed before the missing-migration failure commits even though
the transaction callback throws, so the error branch keeps its writes.  (For
this particular branch the persisted outcome is the same under rollback: the
only writes were `locked := true` then `locked := false`.)

The JavaScript truthiness test `if (currentVersion)` at line 150 is kept: a
stored version `0` would skip the lock release. -/
def stepTx (migs : List Nat) (newVersion : Nat) (s : MigState) : MigState × Option String :=
  match getCurrentVersionAndLockSchema s with
  | (s1, none) => (s1, none)
  | (s1, some cur) =>
    if cur ≥ newVersion then
      (if cur ≠ 0 then setSchemaLock false s1 else s1, none)
    else if migs.contains newVersion then
      (setSchemaLock false (updateSchemaVersion newVersion
        { s1 with applied := s1.applied ++ [newVersion] }), none)
    else
      (setSchemaLock false s1,
       some ("Migration with version " ++ toString newVersion
         ++ " not found. Aborting migration process..."))

/-- The `for (let newVersion = version; newVersion <= targetVersion; ...)`
loop of `migrateToVersion` (lines 145-183).  The fuel argument makes the
recursion structural; `migrateToVersion` supplies `target + 1 - n` which is
exactly the number of remaining iterations, so the fuel never runs out.  After
a successful transaction the local counter is set to `newVersion` (line 182);
a thrown error aborts the loop without that assignment. -/
def migrateLoop (migs : List Nat) (target : Nat) : Nat → Nat → MigState → MigState × Option String
  | 0, _, s => (s, none)
  | fuel + 1, n, s =>
    if n ≤ target then
      match stepTx migs n s with
      | (s', none) => migrateLoop migs target fuel (n + 1) { s' with localVersion := n }
      | (s', some e) => (s', some e)
    else (s, none)

/-- Model of `migrateToVersion` (lines 138-184).  Errors are returned as
`some message`. -/
def migrateToVersion (migs : List Nat) (targetVersion : Nat) (s : MigState) :
    MigState × Option String :=
  if !s.isInitialized then
    (s, some ("Migration failed, database schema is not initialized. "
      ++ "Please call init() first on your database schema."))
  else if targetVersion ≤ 1 then
    (s, some "Target version of migrateToVersion() has to be greater 1")
  else
    migrateLoop migs targetVersion (targetVersion + 1 - s.localVersion) s.localVersion s

/-! #### `migrateLatest` and the comparator-less sort -/

/-- Code-unit-wise string order: the comparison JavaScript's default
`Array.prototype.sort` applies after converting the elements to strings. -/
def lexLeCL : List Char → List Char → Bool
  | [], _ => true
  | _ :: _, [] => false
  | a :: as, b :: bs =>
    if a.toNat < b.toNat then true
    else if b.toNat < a.toNat then false
    else lexLeCL as bs

/-- Insert into a list sorted by `le`. -/
def insertByLe (le : Nat → Nat → Bool) (x : Nat) : List Nat → List Nat
  | [] => [x]
  | y :: ys => if le x y then x :: y :: ys else y :: insertByLe le x ys

/-- Sort by `le` (insertion sort). -/
def sortByLe (le : Nat → Nat → Bool) (l : List Nat) : List Nat :=
  l.foldr (insertByLe le) []

/-- JavaScript's `Array.from(migrations.keys()).sort()`: the keys sorted by
their decimal string representations (the default comparator stringifies). -/
def jsDefaultSort (keys : List Nat) : List Nat :=
  sortByLe (fun a b => lexLeCL (toString a).data (toString b).data) keys

/-- Model of `migrateLatest` (lines 186-191): sort the keys with the default sort, take
the last element, and call `migrateToVersion` with it.  For an empty map the
last element is `undefined`; `migrateToVersion(undefined)` then passes the
`targetVersion <= 1` comparison (false for `undefined`) and its loop condition
`newVersion <= undefined` is also false, so after the initialization check it
does nothing. -/
def migrateLatest (migs : List Nat) (s : MigState) : MigState × Option String :=
  match (jsDefaultSort migs).getLast? with
  | some latestVersion => migrateToVersion migs latestVersion s
  | none =>
    if !s.isInitialized then
      (s, some ("Migration failed, database schema is not initialized. "
        ++ "Please call init() first on your database schema."))
    else (s, none)

/-! #### `init` -/

/-- Model of `getLatestMigrationVersion` (lines 55-57): `max(keys) || 1` with lodash's
`max`, which is `undefined` on an empty collection; both `undefined` and `0`
are falsy, so those cases yield `1`. -/
def getLatestMigrationVersion (migs : List Nat) : Nat :=
  let m := migs.foldr Nat.max 0
  if m == 0 then 1 else m

/-- What the environment does to `init`'s transaction.  The transaction helper
(`database-client.ts`) is not part of the sources; per the specification a
transaction whose body throws is rolled back.  `raceInsert other` models
another node committing its genesis row `other` between this node's empty
`SELECT` and its `INSERT`, which makes the `INSERT` fail with a message
containing `duplicate key value violates unique constraint`. -/
inductive InitEnv where
  | quiet
  | raceInsert (other : LedgerRow)
  | fault (msg : String)

/-- Model of `init` (lines 59-90).  Genesis inserts the row at
`getLatestMigrationVersion` and sets the local counter to it; an existing row
is adopted.  A thrown error is swallowed exactly when its message contains the
duplicate-key substring (line 84), in which case the local assignments inside
the transaction never ran; any other error is rethrown before
`isInitialized = true` is reached. -/
def init (name : String) (migs : List Nat) (env : InitEnv) (s : MigState) :
    MigState × Option String :=
  if s.isInitialized then
    (s, some ("Database schema " ++ name ++ " has already been initialized."))
  else
    match env with
    | .quiet =>
      match s.row with
      | none =>
        let initialVersion := getLatestMigrationVersion migs
        ({ s with row := some ⟨initialVersion, false⟩,
                  localVersion := initialVersion, isInitialized := true }, none)
      | some r => ({ s with localVersion := r.version, isInitialized := true }, none)
    | .raceInsert other =>
      match s.row with
      | some r => ({ s with localVersion := r.version, isInitialized := true }, none)
      | none => ({ s with row := some other, isInitialized := true }, none)
    | .fault msg =>
      if strContainsB "duplicate key value violates unique constraint" msg then
        ({ s with isInitialized := true }, none)
      else (s, some msg)

/-! ### The DDL generator (`src/src/index.ts`, the `sql.ts` module)

`table.ts` is not part of the sources; the column shape below is reconstructed
from how `sql.ts` consumes it: `type` (with the `isJSONType` / `isCollection`
type guards), `primaryKey`, `nullable`, `unique`, `createIndex`,
`autoIncrement`, `defaultValue` (either a native-function object or a literal,
whose escaping by `mapValues`/`pg-escape` is out of scope and represented by
the already-formatted text), and `foreignKeys`.  Optional fields are `Option`s
(`none` = `undefined`), and the JavaScript truthiness tests
`col.x !== undefined && col.x` become `= some true`. -/

/-- A column's declared type: `isJSONType` types render as `JSON`, collection
types as the upper-cased element type followed by `[]`, and plain types as the
upper-cased type keyword. -/
inductive ColType where
  | plain (t : String)
  | json
  | collection (elemType : String)
deriving DecidableEq

/-- A default value: a native database function (emitted bare) or an
already-formatted literal (the output of the out-of-scope `mapValues`). -/
inductive DefaultValue where
  | sqlFunction (func : String)
  | literal (mapped : String)
deriving DecidableEq

/-- The `ForeignKeyUpdateDeleteRule` enumeration consumed by
`mapUpdateDeleteRule`. -/
inductive ForeignKeyUpdateDeleteRule where
  | cascade
  | noAction
  | restrict
  | setDefault
  | setNull
deriving DecidableEq

/-- One declared foreign-key reference of a column. -/
structure ForeignKey where
  targetTable : String
  targetColumn : String
  onDelete : Option ForeignKeyUpdateDeleteRule := none
  onUpdate : Option ForeignKeyUpdateDeleteRule := none
deriving DecidableEq

/-- A column description (without its name; `Columns` is the ordered list of
name/column pairs, mirroring `Object.entries`). -/
structure Column where
  type : ColType
  primaryKey : Option Bool := none
  nullable : Option Bool := none
  unique : Option Bool := none
  createIndex : Option Bool := none
  autoIncrement : Option Bool := none
  defaultValue : Option DefaultValue := none
  foreignKeys : Option (List ForeignKey) := none
deriving DecidableEq

/-- Model of `IReferenceConstraintInternal`: a foreign key tagged with its owning
column name. -/
structure FkInternal where
  column : String
  targetTable : String
  targetColumn : String
  onDelete : Option ForeignKeyUpdateDeleteRule
  onUpdate : Option ForeignKeyUpdateDeleteRule
deriving DecidableEq

/-- Model of `collectForeignKeyConstraints` (lines 277-281): flatten each column's
declared references, tagging them with the column name. -/
def collectForeignKeyConstraints (columns : List (String × Column)) : List FkInternal :=
  (columns.map fun e =>
    match e.2.foreignKeys with
    | some fks => fks.map fun fk => ⟨e.1, fk.targetTable, fk.targetColumn, fk.onDelete, fk.onUpdate⟩
    | none => []).flatten

/-- Model of `String.prototype.toUpperCase` applied to type keywords, as an executable
character map. -/
def upperCase (s : String) : String := ⟨s.data.map Char.toUpper⟩

/-- Model of `mapColumnType` (lines 315-323). -/
def mapColumnType (col : Column) : String :=
  match col.type with
  | .json => "JSON"
  | .collection elemType => upperCase elemType ++ "[]"
  | .plain t => upperCase t

/-- Model of `mapUpdateDeleteRule` (lines 341-356): `NoAction` and `Restrict` map to
the empty string; only `Cascade`, `SetDefault` and `SetNull` emit a clause. -/
def mapUpdateDeleteRule (rule : ForeignKeyUpdateDeleteRule) (isUpdate : Bool) : String :=
  let pre := if isUpdate then "UPDATE" else "DELETE"
  match rule with
  | .cascade => "ON " ++ pre ++ " CASCADE"
  | .noAction => ""
  | .restrict => ""
  | .setDefault => "ON " ++ pre ++ " SET DEFAULT"
  | .setNull => "ON " ++ pre ++ " SET NULL"

/-- Model of `prepareCreateColumnStatement` (lines 283-300). -/
def prepareCreateColumnStatement (name : String) (col : Column) : String :=
  "\"" ++ name ++ "\" "
  ++ (if col.autoIncrement == some true then "" else mapColumnType col) ++ " "
  ++ (if col.autoIncrement == some true then "SERIAL " else "")
  ++ (if col.nullable == some false then "NOT NULL " else "")
  ++ (match col.defaultValue with
      | some (.sqlFunction f) => "DEFAULT " ++ f
      | some (.literal v) => "DEFAULT " ++ v
      | none => "")

/-- Model of `prepareForeignKeyConstraintStatements` (lines 302-313): one statement per
collected reference, named `<table>_<column>_fkey`, with the optional
on-delete / on-update clauses (absent rules contribute the empty string, like
rules that map to it). -/
def prepareForeignKeyConstraintStatements (tableName : String) (fkcs : List FkInternal) :
    List String :=
  fkcs.map fun fkc =>
    tableName ++ "_" ++ fkc.column ++ "_fkey"
    ++ "\n\t\t\tFOREIGN KEY (" ++ fkc.column ++ ") REFERENCES " ++ fkc.targetTable
    ++ " (" ++ fkc.targetColumn ++ ")"
    ++ "\n\t\t\t"
    ++ (match fkc.onDelete with
        | some r => mapUpdateDeleteRule r false
        | none => "")
    ++ "\n\t\t\t"
    ++ (match fkc.onUpdate with
        | some r => mapUpdateDeleteRule r true
        | none => "")

/-- Model of `SQL.createIndex` (lines 263-269). -/
def createIndex (unique : Bool) (name column : String) : String :=
  "CREATE " ++ (if unique then "UNIQUE " else "") ++ "INDEX IF NOT EXISTS "
  ++ name ++ "_" ++ column ++ "_" ++ (if unique then "u" else "") ++ "index ON "
  ++ name ++ " (" ++ column ++ ");"

/-- Model of `SQL.createTable` (lines 30-79): fails when no column is flagged as a
primary key; otherwise one `CREATE TABLE IF NOT EXISTS` whose clause list is
the per-column clauses, then the composite `PK_…` constraint, then one
`CONSTRAINT`-prefixed foreign-key statement per collected reference, joined by
`",\n"`; followed by the `CREATE INDEX` statements for all columns flagged
`unique` or `createIndex`, joined by `"\n"`.  The template-literal whitespace
is kept only approximately. -/
def createTable (name : String) (columns : List (String × Column)) : Except String String :=
  let entries := columns
  let foreignKeyConstraints := collectForeignKeyConstraints entries
  let primaryKeyColoumns := entries.filter fun e => e.2.primaryKey == some true
  if primaryKeyColoumns.isEmpty then
    .error ("Primary Key(s) missing. Cannot create table " ++ name ++ ".")
  else
    let createTableQuery :=
      "\n                CREATE TABLE IF NOT EXISTS " ++ name ++ " (\n\t\t\t\t"
      ++ joinSep ",\n"
          ((entries.map fun e => prepareCreateColumnStatement e.1 e.2)
            ++ ["CONSTRAINT PK_" ++ name ++ "_"
                  ++ joinSep "_" (primaryKeyColoumns.map fun e => e.1)
                  ++ " PRIMARY KEY ("
                  ++ joinSep "," (primaryKeyColoumns.map fun e => "\"" ++ e.1 ++ "\"")
                  ++ ")"]
            ++ (prepareForeignKeyConstraintStatements name foreignKeyConstraints).map
                 fun stmt => "CONSTRAINT " ++ stmt)
      ++ "\n            );\n\t\t"
    let indexStatements := entries.filter fun e =>
      e.2.unique == some true || e.2.createIndex == some true
    let createIndexQueries := indexStatements.map fun e =>
      createIndex (e.2.unique == some true) name e.1
    .ok ("\n\t\t\t\t" ++ createTableQuery ++ "\n\t\t\t\t"
      ++ joinSep "\n" createIndexQueries ++ "\n\t\t\t")

/-- Model of `SQL.addTableColumn` (lines 221-241): `ALTER TABLE … ADD COLUMN` with the
shared column-clause grammar, plus one `ADD CONSTRAINT` statement per declared
foreign key of the column. -/
def addTableColumn (tableName columnName : String) (column : Column)
    (ifNotExists : Bool := false) : String :=
  let foreignKeyConstraints := collectForeignKeyConstraints [(columnName, column)]
  "\n\t\t\t\tALTER TABLE " ++ tableName
  ++ "\n\t\t\t\tADD COLUMN " ++ (if ifNotExists then "IF NOT EXISTS" else "") ++ " "
  ++ prepareCreateColumnStatement columnName column ++ ";\n\t\t\t\t"
  ++ (if foreignKeyConstraints.length > 0 then
        joinSep "\n" ((prepareForeignKeyConstraintStatements tableName foreignKeyConstraints).map
          fun stmt => "ALTER TABLE " ++ tableName ++ " ADD CONSTRAINT " ++ stmt ++ ";")
      else "")
  ++ "\n\t\t\t"

/-! ### The schema-diff `addRequiredColumn` (`src/src/database-schema.ts` 239-248) -/

/-- The statement sequence `addRequiredColumn` joins: the `IF NOT EXISTS` add
of the column with `nullable` forced to `true`, then the caller-supplied
backfill statements, then the `SET NOT NULL` enforcement. -/
def addRequiredColumnParts (table column : String) (col : Column) (updates : List String) :
    List String :=
  [addTableColumn table column { col with nullable := some true } true]
  ++ updates
  ++ ["ALTER TABLE " ++ table ++ " ALTER COLUMN " ++ column ++ " SET NOT NULL;"]

/-- Model of `SchemaDiff.addRequiredColumn`: the parts joined by `"\n"`. -/
def addRequiredColumn (table column : String) (col : Column) (updates : List String) : String :=
  joinSep "\n" (addRequiredColumnParts table column col updates)

/-! ### The dependency resolver -/

/-- Modelled from the spec: `sql-utils.ts` (which defines
`sortTableDependencies` and `composeCreateTableStatements`) is not among the
sources, so the resolver's input is the essential shape §4.2 sorts by — a
table name plus the target-table names of its foreign keys, in declaration
order. -/
structure TableDef where
  name : String
  fkTargets : List String
deriving DecidableEq

/-- Modelled from the spec: a table can be emitted once every table it
references has already been emitted. -/
def tableReady (doneNames : List String) (t : TableDef) : Bool :=
  t.fkTargets.all fun tgt => doneNames.contains tgt

/-- The error of a residual dependency cycle. -/
def cyclicDependenciesMsg : String :=
  "Cannot sort table dependencies: cyclic foreign key references detected."

/-- Modelled from the spec: Kahn's algorithm as §4.2 describes it — repeatedly
emit, in declaration order, every not-yet-emitted table all of whose
foreign-key targets are already emitted; when a round emits nothing although
tables remain, the residual cycle is an error.  The fuel argument makes the
recursion structural; `sortTableDependencies` passes the table count, which
bounds the number of rounds. -/
def kahnLoop : Nat → List TableDef → List TableDef → Except String (List TableDef)
  | _, done, [] => .ok done
  | 0, _, _ :: _ => .error cyclicDependenciesMsg
  | fuel + 1, done, p :: ps =>
    let ready := (p :: ps).filter (tableReady (done.map TableDef.name))
    let rest := (p :: ps).filter fun t => !tableReady (done.map TableDef.name) t
    if ready.isEmpty then .error cyclicDependenciesMsg
    else kahnLoop fuel (done ++ ready) rest

/-- Modelled from the spec: `sortTableDependencies` of the missing
`sql-utils.ts`, per §4.2 — a topological sort of the tables along their
foreign-key edges, ties broken by declaration order, rejecting cycles. -/
def sortTableDependencies (tables : List TableDef) : Except String (List TableDef) :=
  kahnLoop tables.length [] tables

/-- The claimed order property: every table's foreign-key targets appear
strictly before it in the output. -/
def DepOrdered (out : List TableDef) : Prop :=
  ∀ pre t suf, out = pre ++ t :: suf → ∀ tgt ∈ t.fkTargets, tgt ∈ pre.map TableDef.name

/-- A foreign-key cycle in a snapshot: a non-empty set of its tables each of
which references some member of the set. -/
def CyclicDep (ts : List TableDef) : Prop :=
  ∃ S : List TableDef, S ≠ [] ∧ (∀ t ∈ S, t ∈ ts) ∧ ∀ t ∈ S, ∃ u ∈ S, u.name ∈ t.fkTargets

/-! ## Supporting lemmas -/

theorem hasPrefixCL_append (n r : List Char) : hasPrefixCL n (n ++ r) = true := by
  induction n with
  | nil => rfl
  | cons a as ih => simp [hasPrefixCL, ih]

theorem containsCL_of_hasPrefixCL {n h : List Char} (hp : hasPrefixCL n h = true) :
    containsCL n h = true := by
  cases h with
  | nil => exact hp
  | cons b bs => simp [containsCL, hp]

theorem containsCL_cons {n : List Char} (b : Char) {h : List Char}
    (hc : containsCL n h = true) : containsCL n (b :: h) = true := by
  simp [containsCL, hc]

theorem strOccurs_self (n : String) : strOccurs n n := ⟨[], [], by simp⟩

theorem strOccurs_append_left {n h : String} (g : String) :
    strOccurs n h → strOccurs n (g ++ h)
  | ⟨a, b, hab⟩ => ⟨g.data ++ a, b, by simp [String.data_append, hab]⟩

theorem strOccurs_append_right {n h : String} (g : String) :
    strOccurs n h → strOccurs n (h ++ g)
  | ⟨a, b, hab⟩ => ⟨a, b ++ g.data, by simp [String.data_append, hab]⟩

theorem strOccurs_prefix (n g : String) : strOccurs n (n ++ g) :=
  ⟨[], g.data, by simp [String.data_append]⟩

theorem strOccurs_trans {a b c : String} : strOccurs a b → strOccurs b c → strOccurs a c
  | ⟨x, y, hxy⟩, ⟨u, v, huv⟩ => ⟨u ++ x, y ++ v, by simp [huv, hxy]⟩

theorem strOccurs_joinSep {x : String} (sep : String) :
    ∀ {parts : List String}, x ∈ parts → strOccurs x (joinSep sep parts)
  | [], hx => absurd hx (List.not_mem_nil x)
  | [p], hx => by
    have : x = p := by simpa using hx
    subst this
    exact strOccurs_self x
  | p :: q :: ps, hx => by
    rcases List.mem_cons.mp hx with h | h
    · subst h
      show strOccurs x (x ++ sep ++ joinSep sep (q :: ps))
      exact strOccurs_append_right _ (strOccurs_append_right _ (strOccurs_self x))
    · show strOccurs x (p ++ sep ++ joinSep sep (q :: ps))
      exact strOccurs_append_left _ (strOccurs_joinSep sep h)

theorem strOccurs_of_eq_append {n h : String} (g : String) (heq : h = n ++ g) :
    strOccurs n h := heq ▸ strOccurs_prefix n g

/-! Evaluation lemmas for one loop transaction on an unlocked ledger row. -/

theorem stepTx_skip {migs : List Nat} {n c lv : Nat} {ini : Bool} {app : List Nat}
    (h1 : n ≤ c) (h2 : 1 ≤ c) :
    stepTx migs n ⟨some ⟨c, false⟩, lv, ini, app⟩ = (⟨some ⟨c, false⟩, lv, ini, app⟩, none) := by
  have hc0 : c ≠ 0 := by omega
  simp [stepTx, getCurrentVersionAndLockSchema, setSchemaLock, h1, hc0]

theorem stepTx_apply {migs : List Nat} {n c lv : Nat} {ini : Bool} {app : List Nat}
    (h1 : c < n) (hm : n ∈ migs) :
    stepTx migs n ⟨some ⟨c, false⟩, lv, ini, app⟩
      = (⟨some ⟨n, false⟩, lv, ini, app ++ [n]⟩, none) := by
  have hnc : ¬c ≥ n := by omega
  have hcont : migs.contains n = true := List.elem_iff.mpr hm
  simp [stepTx, getCurrentVersionAndLockSchema, setSchemaLock, updateSchemaVersion, hnc, hcont,
    hm]

theorem stepTx_missing {migs : List Nat} {n c lv : Nat} {ini : Bool} {app : List Nat}
    (h1 : c < n) (hm : n ∉ migs) :
    stepTx migs n ⟨some ⟨c, false⟩, lv, ini, app⟩
      = (⟨some ⟨c, false⟩, lv, ini, app⟩,
         some ("Migration with version " ++ toString n
           ++ " not found. Aborting migration process...")) := by
  have hnc : ¬c ≥ n := by omega
  have hcont : ¬migs.contains n = true := fun hc => hm (List.elem_iff.mp hc)
  simp [stepTx, getCurrentVersionAndLockSchema, setSchemaLock, hnc, hcont, hm]

/-- Running the loop from `n` against an unlocked ledger row at version `c`,
with every step in `(c, v]` present in the migration set: every iteration up
to `c` abandons its step against the re-read persisted version, the steps
`c+1 … v` run once each in order, and the loop ends unlocked at
`max c v` with the local counter at `v`. -/
theorem migrateLoop_run (migs : List Nat) (v : Nat) :
    ∀ fuel n c lv app (ini : Bool), v + 1 ≤ fuel + n → n ≤ c + 1 → 1 ≤ c →
    (∀ q, c < q → q ≤ v → q ∈ migs) →
    migrateLoop migs v fuel n ⟨some ⟨c, false⟩, lv, ini, app⟩ =
      if n ≤ v then
        (⟨some ⟨max c v, false⟩, v, ini, app ++ List.range' (c + 1) (v - c)⟩, none)
      else
        (⟨some ⟨c, false⟩, lv, ini, app⟩, none) := by
  intro fuel
  induction fuel with
  | zero =>
    intro n c lv app ini hfuel _ _ _
    have hnv : ¬n ≤ v := by omega
    simp [migrateLoop, hnv]
  | succ fuel ih =>
    intro n c lv app ini hfuel hnc hc hsteps
    by_cases hnv : n ≤ v
    · rw [if_pos hnv]
      by_cases hskip : n ≤ c
      · rw [show migrateLoop migs v (fuel + 1) n ⟨some ⟨c, false⟩, lv, ini, app⟩
            = migrateLoop migs v fuel (n + 1) ⟨some ⟨c, false⟩, n, ini, app⟩ by
          simp [migrateLoop, hnv, stepTx_skip hskip hc]]
        rw [ih (n + 1) c n app ini (by omega) (by omega) hc hsteps]
        by_cases hnv' : n + 1 ≤ v
        · rw [if_pos hnv']
        · rw [if_neg hnv']
          have hveq : v = n := by omega
          subst hveq
          have hmax : max c v = c := max_eq_left hskip
          have hrange : v - c = 0 := by omega
          simp [hmax, hrange]
      · have hcn : c < n := by omega
        have hn : n = c + 1 := by omega
        have hmem : n ∈ migs := hsteps n hcn hnv
        rw [show migrateLoop migs v (fuel + 1) n ⟨some ⟨c, false⟩, lv, ini, app⟩
            = migrateLoop migs v fuel (n + 1) ⟨some ⟨n, false⟩, n, ini, app ++ [n]⟩ by
          simp [migrateLoop, hnv, stepTx_apply hcn hmem]]
        rw [ih (n + 1) n n (app ++ [n]) ini (by omega) (by omega) (by omega)
          (fun q hq1 hq2 => hsteps q (by omega) hq2)]
        have hrange : List.range' (c + 1) (v - c) = n :: List.range' (n + 1) (v - n) := by
          have hvc : v - c = (v - n) + 1 := by omega
          rw [hvc, hn, List.range'_succ]
        by_cases hnv' : n + 1 ≤ v
        · rw [if_pos hnv']
          have hmax : max n v = max c v := by
            rw [max_eq_right (by omega : n ≤ v), max_eq_right (by omega : c ≤ v)]
          rw [hmax, hrange]
          simp
        · rw [if_neg hnv']
          have hveq : v = n := by omega
          subst hveq
          have hmax : max c v = v := max_eq_right (by omega)
          simp [hmax, hrange]
    · rw [if_neg hnv]
      simp [migrateLoop, hnv]

/-- Running the loop from `n` against an unlocked ledger row at version `c`
when the step for version `m` (with `c < m ≤ v`) is absent but all steps in
`(c, m)` are present: the steps `c+1 … m-1` run once each, the iteration for
`m` releases the persisted lock and aborts the run with the "not found" error,
so the persisted version stays at `m-1`, and the local counter is not advanced
past `m-1`. -/
theorem migrateLoop_missing (migs : List Nat) (v m : Nat) :
    ∀ fuel n c lv app (ini : Bool), v + 1 ≤ fuel + n → n ≤ c + 1 → 1 ≤ c →
    c < m → m ≤ v → m ∉ migs → (∀ q, c < q → q < m → q ∈ migs) →
    migrateLoop migs v fuel n ⟨some ⟨c, false⟩, lv, ini, app⟩ =
      (⟨some ⟨m - 1, false⟩, if n < m then m - 1 else lv, ini,
        app ++ List.range' (c + 1) (m - 1 - c)⟩,
       some ("Migration with version " ++ toString m
         ++ " not found. Aborting migration process...")) := by
  intro fuel
  induction fuel with
  | zero =>
    intro n c lv app ini hfuel hnc hc hcm hmv _ _
    omega
  | succ fuel ih =>
    intro n c lv app ini hfuel hnc hc hcm hmv hmiss hsteps
    have hnv : n ≤ v := by omega
    by_cases hskip : n ≤ c
    · rw [show migrateLoop migs v (fuel + 1) n ⟨some ⟨c, false⟩, lv, ini, app⟩
          = migrateLoop migs v fuel (n + 1) ⟨some ⟨c, false⟩, n, ini, app⟩ by
        simp [migrateLoop, hnv, stepTx_skip hskip hc]]
      rw [ih (n + 1) c n app ini (by omega) (by omega) hc hcm hmv hmiss hsteps]
      have h1 : n < m := by omega
      by_cases h2 : n + 1 < m
      · rw [if_pos h2, if_pos h1]
      · rw [if_neg h2, if_pos h1]
        have : n = m - 1 := by omega
        rw [this]
    · have hcn : c < n := by omega
      have hn : n = c + 1 := by omega
      by_cases hnm : n = m
      · subst hnm
        have hceq : c = n - 1 := by omega
        rw [show migrateLoop migs v (fuel + 1) n ⟨some ⟨c, false⟩, lv, ini, app⟩
            = (⟨some ⟨c, false⟩, lv, ini, app⟩,
               some ("Migration with version " ++ toString n
                 ++ " not found. Aborting migration process...")) by
          simp [migrateLoop, hnv, stepTx_missing hcn hmiss]]
        have hlt : ¬n < n := by omega
        have hrange : n - 1 - c = 0 := by omega
        rw [if_neg hlt, hrange, List.range'_zero, List.append_nil, ← hceq]
      · have hnltm : n < m := by omega
        have hmem : n ∈ migs := hsteps n hcn hnltm
        rw [show migrateLoop migs v (fuel + 1) n ⟨some ⟨c, false⟩, lv, ini, app⟩
            = migrateLoop migs v fuel (n + 1) ⟨some ⟨n, false⟩, n, ini, app ++ [n]⟩ by
          simp [migrateLoop, hnv, stepTx_apply hcn hmem]]
        rw [ih (n + 1) n n (app ++ [n]) ini (by omega) (by omega) (by omega) (by omega) hmv
          hmiss (fun q hq1 hq2 => hsteps q (by omega) hq2)]
        have hrange : List.range' (c + 1) (m - 1 - c) = n :: List.range' (n + 1) (m - 1 - n) := by
          have hvc : m - 1 - c = (m - 1 - n) + 1 := by omega
          rw [hvc, hn, List.range'_succ]
        rw [hrange]
        by_cases h2 : n + 1 < m
        · rw [if_pos h2, if_pos hnltm]
          simp
        · rw [if_neg h2, if_pos hnltm]
          have hne : n = m - 1 := by omega
          rw [hne]
          simp

/-! Lemmas for the dependency resolver: the loop invariants of `kahnLoop`. -/

theorem kahnLoop_sound :
    ∀ (fuel : Nat) (done pending out : List TableDef),
      List.Pairwise (fun a b => b.name ∉ a.fkTargets) done →
      (∀ a ∈ done, ∀ tgt ∈ a.fkTargets, tgt ∈ done.map TableDef.name) →
      (∀ a ∈ done, a.name ∉ a.fkTargets) →
      ((done ++ pending).map TableDef.name).Nodup →
      kahnLoop fuel done pending = .ok out →
      List.Pairwise (fun a b => b.name ∉ a.fkTargets) out
      ∧ (∀ a ∈ out, ∀ tgt ∈ a.fkTargets, tgt ∈ out.map TableDef.name)
      ∧ (∀ a ∈ out, a.name ∉ a.fkTargets)
      ∧ out.Perm (done ++ pending) := by
  intro fuel
  induction fuel with
  | zero =>
    intro done pending out hPair hClosed hSelf hNodup hok
    cases pending with
    | nil =>
      have hdo : done = out := by simpa [kahnLoop] using hok
      subst hdo
      exact ⟨hPair, hClosed, hSelf, by simp⟩
    | cons p ps => simp [kahnLoop] at hok
  | succ fuel ih =>
    intro done pending out hPair hClosed hSelf hNodup hok
    cases pending with
    | nil =>
      have hdo : done = out := by simpa [kahnLoop] using hok
      subst hdo
      exact ⟨hPair, hClosed, hSelf, by simp⟩
    | cons p ps =>
      simp only [kahnLoop] at hok
      by_cases hready :
          ((p :: ps).filter (tableReady (done.map TableDef.name))).isEmpty = true
      · rw [if_pos hready] at hok
        simp at hok
      · rw [if_neg hready] at hok
        have hdisj : ∀ b ∈ p :: ps, b.name ∉ done.map TableDef.name := by
          have h := hNodup
          rw [List.map_append, List.nodup_append] at h
          intro b hb hmem
          exact h.2.2 hmem (List.mem_map_of_mem TableDef.name hb)
        have hreadySub : ∀ a ∈ (p :: ps).filter (tableReady (done.map TableDef.name)),
            a ∈ p :: ps := fun a ha => (List.mem_filter.mp ha).1
        have hreadyClosed : ∀ a ∈ (p :: ps).filter (tableReady (done.map TableDef.name)),
            ∀ tgt ∈ a.fkTargets, tgt ∈ done.map TableDef.name := by
          intro a ha tgt htgt
          have h := (List.mem_filter.mp ha).2
          rw [tableReady, List.all_eq_true] at h
          exact List.elem_iff.mp (h tgt htgt)
        have hPair' : List.Pairwise (fun a b => b.name ∉ a.fkTargets)
            (done ++ (p :: ps).filter (tableReady (done.map TableDef.name))) := by
          rw [List.pairwise_append]
          refine ⟨hPair, List.pairwise_of_forall_mem_list fun a ha b hb hmem =>
            hdisj b (hreadySub b hb) (hreadyClosed a ha _ hmem), fun a ha b hb hmem =>
            hdisj b (hreadySub b hb) (hClosed a ha _ hmem)⟩
        have hClosed' : ∀ a ∈ done ++ (p :: ps).filter (tableReady (done.map TableDef.name)),
            ∀ tgt ∈ a.fkTargets,
              tgt ∈ (done ++ (p :: ps).filter (tableReady (done.map TableDef.name))).map
                TableDef.name := by
          intro a ha tgt htgt
          rw [List.map_append]
          rcases List.mem_append.mp ha with h | h
          · exact List.mem_append_left _ (hClosed a h tgt htgt)
          · exact List.mem_append_left _ (hreadyClosed a h tgt htgt)
        have hSelf' : ∀ a ∈ done ++ (p :: ps).filter (tableReady (done.map TableDef.name)),
            a.name ∉ a.fkTargets := by
          intro a ha
          rcases List.mem_append.mp ha with h | h
          · exact hSelf a h
          · exact fun hmem => hdisj a (hreadySub a h) (hreadyClosed a h _ hmem)
        have hperm : ((done ++ (p :: ps).filter (tableReady (done.map TableDef.name)))
              ++ (p :: ps).filter fun t => !tableReady (done.map TableDef.name) t).Perm
            (done ++ (p :: ps)) := by
          rw [List.append_assoc]
          exact List.Perm.append_left done (List.filter_append_perm _ _)
        have hNodup' : (((done ++ (p :: ps).filter (tableReady (done.map TableDef.name)))
              ++ (p :: ps).filter fun t => !tableReady (done.map TableDef.name) t).map
            TableDef.name).Nodup :=
          ((hperm.map TableDef.name).nodup_iff).mpr hNodup
        obtain ⟨o1, o2, o3, o4⟩ := ih _ _ out hPair' hClosed' hSelf' hNodup' hok
        exact ⟨o1, o2, o3, o4.trans hperm⟩

theorem kahnLoop_error_cycle :
    ∀ (fuel : Nat) (done pending : List TableDef),
      pending.length ≤ fuel →
      ((done ++ pending).map TableDef.name).Nodup →
      (∀ t ∈ pending, ∀ tgt ∈ t.fkTargets, tgt ∈ (done ++ pending).map TableDef.name) →
      ∀ msg, kahnLoop fuel done pending = .error msg →
        ∃ S : List TableDef, S ≠ [] ∧ (∀ t ∈ S, t ∈ pending) ∧
          ∀ t ∈ S, ∃ u ∈ S, u.name ∈ t.fkTargets := by
  intro fuel
  induction fuel with
  | zero =>
    intro done pending hlen hNodup hcl msg hok
    cases pending with
    | nil => simp [kahnLoop] at hok
    | cons p ps => simp at hlen
  | succ fuel ih =>
    intro done pending hlen hNodup hcl msg hok
    cases pending with
    | nil => simp [kahnLoop] at hok
    | cons p ps =>
      simp only [kahnLoop] at hok
      have hdisj : ∀ b ∈ p :: ps, b.name ∉ done.map TableDef.name := by
        have h := hNodup
        rw [List.map_append, List.nodup_append] at h
        intro b hb hmem
        exact h.2.2 hmem (List.mem_map_of_mem TableDef.name hb)
      by_cases hready :
          ((p :: ps).filter (tableReady (done.map TableDef.name))).isEmpty = true
      · refine ⟨p :: ps, by simp, fun t ht => ht, ?_⟩
        intro t ht
        have hnr : tableReady (done.map TableDef.name) t = false := by
          by_contra hcon
          have htr : tableReady (done.map TableDef.name) t = true := by
            cases h : tableReady (done.map TableDef.name) t
            · exact absurd h hcon
            · rfl
          have : t ∈ (p :: ps).filter (tableReady (done.map TableDef.name)) :=
            List.mem_filter.mpr ⟨ht, htr⟩
          rw [List.isEmpty_iff.mp hready] at this
          exact absurd this (List.not_mem_nil t)
        rw [tableReady] at hnr
        have hex : ∃ tgt ∈ t.fkTargets, ¬(done.map TableDef.name).contains tgt = true := by
          by_contra hcon
          push_neg at hcon
          have : t.fkTargets.all (fun tgt => (done.map TableDef.name).contains tgt) = true :=
            List.all_eq_true.mpr hcon
          rw [this] at hnr
          exact absurd hnr (by simp)
        obtain ⟨tgt, htgt, hnc⟩ := hex
        have htm : tgt ∈ (p :: ps).map TableDef.name := by
          have h := hcl t ht tgt htgt
          rw [List.map_append, List.mem_append] at h
          rcases h with h | h
          · exact absurd (List.elem_iff.mpr h) hnc
          · exact h
        obtain ⟨u, hu, huname⟩ := List.mem_map.mp htm
        exact ⟨u, hu, huname ▸ htgt⟩
      · rw [if_neg hready] at hok
        have hlt : ((p :: ps).filter fun t => !tableReady (done.map TableDef.name) t).length
            < (p :: ps).length := by
          apply List.length_filter_lt_length_iff_exists.mpr
          obtain ⟨x, hx⟩ := List.exists_mem_of_ne_nil
            ((p :: ps).filter (tableReady (done.map TableDef.name)))
            (fun hnil => hready (by rw [hnil]; rfl))
          refine ⟨x, (List.mem_filter.mp hx).1, ?_⟩
          simp [(List.mem_filter.mp hx).2]
        have hperm : ((done ++ (p :: ps).filter (tableReady (done.map TableDef.name)))
              ++ (p :: ps).filter fun t => !tableReady (done.map TableDef.name) t).Perm
            (done ++ (p :: ps)) := by
          rw [List.append_assoc]
          exact List.Perm.append_left done (List.filter_append_perm _ _)
        have hNodup' := ((hperm.map TableDef.name).nodup_iff).mpr hNodup
        have hcl' : ∀ t ∈ (p :: ps).filter fun t => !tableReady (done.map TableDef.name) t,
            ∀ tgt ∈ t.fkTargets,
              tgt ∈ ((done ++ (p :: ps).filter (tableReady (done.map TableDef.name)))
                ++ (p :: ps).filter fun t => !tableReady (done.map TableDef.name) t).map
                TableDef.name := by
          intro t ht tgt htgt
          have h := hcl t (List.mem_filter.mp ht).1 tgt htgt
          exact ((hperm.map TableDef.name).mem_iff).mpr h
        obtain ⟨S, hne, hsub, hcyc⟩ := ih _ _ (by omega) hNodup' hcl' msg hok
        exact ⟨S, hne, fun t ht => (List.mem_filter.mp (hsub t ht)).1, hcyc⟩

theorem kahnLoop_cycle_error :
    ∀ (fuel : Nat) (done pending S : List TableDef),
      S ≠ [] → (∀ t ∈ S, t ∈ pending) →
      (∀ t ∈ S, ∃ u ∈ S, u.name ∈ t.fkTargets) →
      ((done ++ pending).map TableDef.name).Nodup →
      kahnLoop fuel done pending = .error cyclicDependenciesMsg := by
  intro fuel
  induction fuel with
  | zero =>
    intro done pending S hne hsub hcyc hNodup
    cases pending with
    | nil =>
      obtain ⟨x, hx⟩ := List.exists_mem_of_ne_nil _ hne
      exact absurd (hsub x hx) (List.not_mem_nil x)
    | cons p ps => rfl
  | succ fuel ih =>
    intro done pending S hne hsub hcyc hNodup
    cases pending with
    | nil =>
      obtain ⟨x, hx⟩ := List.exists_mem_of_ne_nil _ hne
      exact absurd (hsub x hx) (List.not_mem_nil x)
    | cons p ps =>
      have hdisj : ∀ b ∈ p :: ps, b.name ∉ done.map TableDef.name := by
        have h := hNodup
        rw [List.map_append, List.nodup_append] at h
        intro b hb hmem
        exact h.2.2 hmem (List.mem_map_of_mem TableDef.name hb)
      have hSnotready : ∀ t ∈ S, tableReady (done.map TableDef.name) t = false := by
        intro t ht
        obtain ⟨u, hu, huname⟩ := hcyc t ht
        cases h : tableReady (done.map TableDef.name) t
        · rfl
        · exfalso
          rw [tableReady, List.all_eq_true] at h
          exact hdisj u (hsub u hu) (List.elem_iff.mp (h u.name huname))
      simp only [kahnLoop]
      by_cases hready :
          ((p :: ps).filter (tableReady (done.map TableDef.name))).isEmpty = true
      · rw [if_pos hready]
      · rw [if_neg hready]
        have hsub' : ∀ t ∈ S, t ∈ (p :: ps).filter
            fun t => !tableReady (done.map TableDef.name) t := by
          intro t ht
          refine List.mem_filter.mpr ⟨hsub t ht, ?_⟩
          simp [hSnotready t ht]
        have hperm : ((done ++ (p :: ps).filter (tableReady (done.map TableDef.name)))
              ++ (p :: ps).filter fun t => !tableReady (done.map TableDef.name) t).Perm
            (done ++ (p :: ps)) := by
          rw [List.append_assoc]
          exact List.Perm.append_left done (List.filter_append_perm _ _)
        exact ih _ _ S hne hsub' hcyc (((hperm.map TableDef.name).nodup_iff).mpr hNodup)

/-! ## Claim theorems -/

/-- C1: from an initialized schema whose persisted and local version is `p`
(unlocked), with all steps in `(p, v]` present, `migrateToVersion v` is
idempotent for any target `v > 1`: the first call succeeds, the second call
returns the reached state unchanged with no error, every step version in
`(p, v]` was run exactly once across both calls and no other step was run at
all; and, for every `t` with `1 < t` below the current version,
`migrateToVersion t` returns the state completely unchanged (persisted
version, locked flag and local counter included) with no error.  The
lower-target bounds constrain only that last conjunct, so the idempotence
part covers every initialized version `p ≥ 1`, the fresh-genesis states
included. -/
theorem migrateToVersion_idempotent_and_lower_noop (migs : List Nat) (p v : Nat)
    (hp : 1 ≤ p) (hv : 1 < v)
    (hsteps : ∀ q ∈ List.range' (p + 1) (v - p), q ∈ migs) :
    (migrateToVersion migs v ⟨some ⟨p, false⟩, p, true, []⟩).2 = none
    ∧ migrateToVersion migs v (migrateToVersion migs v ⟨some ⟨p, false⟩, p, true, []⟩).1
        = ((migrateToVersion migs v ⟨some ⟨p, false⟩, p, true, []⟩).1, none)
    ∧ (∀ q, p < q → q ≤ v →
        (migrateToVersion migs v ⟨some ⟨p, false⟩, p, true, []⟩).1.applied.count q = 1)
    ∧ (∀ q, ¬(p < q ∧ q ≤ v) →
        (migrateToVersion migs v ⟨some ⟨p, false⟩, p, true, []⟩).1.applied.count q = 0)
    ∧ ∀ t, 1 < t → t < p →
        migrateToVersion migs t ⟨some ⟨p, false⟩, p, true, []⟩
          = (⟨some ⟨p, false⟩, p, true, []⟩, none) := by
  have hv1 : ¬v ≤ 1 := by omega
  have hsteps' : ∀ q, p < q → q ≤ v → q ∈ migs := fun q h1 h2 =>
    hsteps q (List.mem_range'_1.mpr ⟨by omega, by omega⟩)
  have hnoop : ∀ t, 1 < t → t < p →
      migrateToVersion migs t ⟨some ⟨p, false⟩, p, true, []⟩
        = (⟨some ⟨p, false⟩, p, true, []⟩, none) := by
    intro t ht1 ht2
    have ht1' : ¬t ≤ 1 := by omega
    have hf0 : t + 1 - p = 0 := by omega
    simp only [migrateToVersion, Bool.not_true, if_neg ht1']
    rw [hf0]
    rfl
  have hcall1 : migrateToVersion migs v ⟨some ⟨p, false⟩, p, true, []⟩
      = migrateLoop migs v (v + 1 - p) p ⟨some ⟨p, false⟩, p, true, []⟩ := by
    simp [migrateToVersion, hv1]
  by_cases hpv : p ≤ v
  · have hrun := migrateLoop_run migs v (v + 1 - p) p p p [] true (by omega) (by omega)
      hp hsteps'
    rw [if_pos hpv, max_eq_right hpv, List.nil_append] at hrun
    have hfirst : migrateToVersion migs v ⟨some ⟨p, false⟩, p, true, []⟩
        = (⟨some ⟨v, false⟩, v, true, List.range' (p + 1) (v - p)⟩, none) := by
      rw [hcall1, hrun]
    have hrun2 := migrateLoop_run migs v (v + 1 - v) v v v (List.range' (p + 1) (v - p)) true
      (by omega) (by omega) (by omega) (fun q hq1 hq2 => absurd (hq1.trans_le hq2) (lt_irrefl v))
    rw [if_pos (le_refl v), max_self, Nat.sub_self, List.range'_zero, List.append_nil] at hrun2
    refine ⟨by rw [hfirst], ?_, ?_, ?_, hnoop⟩
    · rw [hfirst]
      show migrateToVersion migs v ⟨some ⟨v, false⟩, v, true, List.range' (p + 1) (v - p)⟩ = _
      simp only [migrateToVersion, Bool.not_true, if_neg hv1]
      exact hrun2
    · intro q h1 h2
      rw [hfirst]
      exact List.count_eq_one_of_mem (List.nodup_range' _ _)
        (List.mem_range'_1.mpr ⟨by omega, by omega⟩)
    · intro q hq
      rw [hfirst]
      refine List.count_eq_zero_of_not_mem fun hmem => ?_
      have := List.mem_range'_1.mp hmem
      exact hq ⟨by omega, by omega⟩
  · have hf0 : v + 1 - p = 0 := by omega
    have hfirst : migrateToVersion migs v ⟨some ⟨p, false⟩, p, true, []⟩
        = (⟨some ⟨p, false⟩, p, true, []⟩, none) := by
      rw [hcall1, hf0]
      rfl
    refine ⟨by rw [hfirst], by rw [hfirst, hfirst], ?_, ?_, hnoop⟩
    · intro q h1 h2
      omega
    · intro q _
      rw [hfirst]
      exact List.count_nil q

/-- C1 witness: the canonical fresh-genesis case — a schema initialized at
version 1 with steps 2 and 3 present — migrates to 3 without error and a
second identical call returns the reached state unchanged; and, at a schema
at version 3, the lower target 2 is a strict no-op. -/
theorem migrateToVersion_idempotent_and_lower_noop_witness :
    (migrateToVersion [2, 3] 3 ⟨some ⟨1, false⟩, 1, true, []⟩).2 = none
    ∧ migrateToVersion [2, 3] 3 (migrateToVersion [2, 3] 3 ⟨some ⟨1, false⟩, 1, true, []⟩).1
        = ((migrateToVersion [2, 3] 3 ⟨some ⟨1, false⟩, 1, true, []⟩).1, none)
    ∧ migrateToVersion [4, 5] 2 ⟨some ⟨3, false⟩, 3, true, []⟩
        = (⟨some ⟨3, false⟩, 3, true, []⟩, none) :=
  ⟨(migrateToVersion_idempotent_and_lower_noop [2, 3] 1 3 (by decide) (by decide)
      (by decide)).1,
   (migrateToVersion_idempotent_and_lower_noop [2, 3] 1 3 (by decide) (by decide)
      (by decide)).2.1,
   (migrateToVersion_idempotent_and_lower_noop [4, 5] 3 5 (by decide) (by decide)
      (by decide)).2.2.2.2 2 (by decide) (by decide)⟩

/-- C3: from an initialized schema at persisted and local version `p`, when the
step for version `m` (with `p < m ≤ target`) is absent from the migration set
while all steps in `(p, m)` are present, `migrateToVersion target` fails with
the descriptive "Migration with version m not found" error; exactly the steps
`p+1 … m-1` ran (nothing at or beyond `m` was attempted), the persisted
version stays at `m-1` — the last successfully applied step — and the
persisted `locked` flag ends `false`, so a subsequent call on the resulting
state with a completed migration set succeeds and resumes at `m`. -/
theorem migrateToVersion_missing_step_aborts (migs : List Nat) (p m target : Nat)
    (hp : 1 ≤ p) (hpm : p < m) (hmt : m ≤ target) (hmiss : m ∉ migs)
    (hsteps : ∀ q ∈ List.range' (p + 1) (m - 1 - p), q ∈ migs) :
    migrateToVersion migs target ⟨some ⟨p, false⟩, p, true, []⟩
      = (⟨some ⟨m - 1, false⟩, m - 1, true, List.range' (p + 1) (m - 1 - p)⟩,
         some ("Migration with version " ++ toString m
           ++ " not found. Aborting migration process..."))
    ∧ (∀ q ∈ List.range' (p + 1) (m - 1 - p), p < q ∧ q < m)
    ∧ ∀ migs2 : List Nat, (∀ q ∈ List.range' m (target + 1 - m), q ∈ migs2) →
        migrateToVersion migs2 target
            ⟨some ⟨m - 1, false⟩, m - 1, true, List.range' (p + 1) (m - 1 - p)⟩
          = (⟨some ⟨target, false⟩, target, true,
              List.range' (p + 1) (m - 1 - p) ++ List.range' m (target + 1 - m)⟩, none) := by
  have htgt1 : ¬target ≤ 1 := by omega
  have hsteps' : ∀ q, p < q → q < m → q ∈ migs := fun q h1 h2 =>
    hsteps q (List.mem_range'_1.mpr ⟨by omega, by omega⟩)
  have hrun := migrateLoop_missing migs target m (target + 1 - p) p p p [] true (by omega)
    (by omega) hp hpm hmt hmiss hsteps'
  rw [if_pos (by omega : p < m), List.nil_append] at hrun
  refine ⟨?_, ?_, ?_⟩
  · simp only [migrateToVersion, Bool.not_true, if_neg htgt1]
    exact hrun
  · intro q hq
    have := List.mem_range'_1.mp hq
    exact ⟨by omega, by omega⟩
  · intro migs2 h2
    have hsteps2 : ∀ q, m - 1 < q → q ≤ target → q ∈ migs2 := fun q hq1 hq2 =>
      h2 q (List.mem_range'_1.mpr ⟨by omega, by omega⟩)
    have hrun2 := migrateLoop_run migs2 target (target + 1 - (m - 1)) (m - 1) (m - 1) (m - 1)
      (List.range' (p + 1) (m - 1 - p)) true (by omega) (by omega) (by omega) hsteps2
    rw [if_pos (by omega : m - 1 ≤ target), max_eq_right (by omega : m - 1 ≤ target)] at hrun2
    have hr : List.range' (m - 1 + 1) (target - (m - 1)) = List.range' m (target + 1 - m) := by
      congr 1 <;> omega
    rw [hr] at hrun2
    simp only [migrateToVersion, Bool.not_true, if_neg htgt1]
    exact hrun2

/-- C3 witness: schema at version 1, only step 2 present, target 4 — the run
aborts at the missing step 3, has applied exactly step 2, and leaves the
persisted row at version 2, unlocked. -/
theorem migrateToVersion_missing_step_aborts_witness :
    migrateToVersion [2] 4 ⟨some ⟨1, false⟩, 1, true, []⟩
      = (⟨some ⟨2, false⟩, 2, true, [2]⟩,
         some "Migration with version 3 not found. Aborting migration process...") :=
  (migrateToVersion_missing_step_aborts [2] 1 3 4 (by decide) (by decide) (by decide)
    (by decide) (by decide)).1

/-- C9: losing the genesis race — `init`'s transaction fails with the
suppressed duplicate-key violation while another node's row at version
`P ≥ 1` is committed — leaves the schema marked initialized with the local
counter (and hence `getVersion`) at `0` although the persisted version is `P`;
a later `migrateToVersion t` therefore starts its loop at `0`, each
per-version transaction re-reads the persisted version and abandons the
already-applied steps `≤ P` (applying exactly the steps in `(P, t]`, none when
`t ≤ P`), and the call converges without error with the local counter at
`t`. -/
theorem lost_genesis_race_converges (migs : List Nat) (name : String) (P t : Nat)
    (hP : 1 ≤ P) (ht : 1 < t)
    (hsteps : ∀ q ∈ List.range' (P + 1) (t - P), q ∈ migs) :
    init name migs (.raceInsert ⟨P, false⟩) ⟨none, 0, false, []⟩
      = (⟨some ⟨P, false⟩, 0, true, []⟩, none)
    ∧ getVersion ⟨some ⟨P, false⟩, 0, true, []⟩ = 0
    ∧ migrateToVersion migs t ⟨some ⟨P, false⟩, 0, true, []⟩
      = (⟨some ⟨max P t, false⟩, t, true, List.range' (P + 1) (t - P)⟩, none) := by
  have ht1 : ¬t ≤ 1 := by omega
  have hsteps' : ∀ q, P < q → q ≤ t → q ∈ migs := fun q h1 h2 =>
    hsteps q (List.mem_range'_1.mpr ⟨by omega, by omega⟩)
  refine ⟨rfl, rfl, ?_⟩
  have hrun := migrateLoop_run migs t (t + 1 - 0) 0 P 0 [] true (by omega) (by omega)
    hP hsteps'
  rw [if_pos (by omega : 0 ≤ t), List.nil_append] at hrun
  simp only [migrateToVersion, Bool.not_true, if_neg ht1]
  exact hrun

/-- C9 witness: the race lost against a row at version 2 with steps 3 and 4
present; `getVersion` is 0, and migrating to 4 applies exactly steps 3
and 4. -/
theorem lost_genesis_race_converges_witness :
    init "TestSchema" [3, 4] (.raceInsert ⟨2, false⟩) ⟨none, 0, false, []⟩
      = (⟨some ⟨2, false⟩, 0, true, []⟩, none)
    ∧ migrateToVersion [3, 4] 4 ⟨some ⟨2, false⟩, 0, true, []⟩
      = (⟨some ⟨4, false⟩, 4, true, [3, 4]⟩, none) :=
  ⟨(lost_genesis_race_converges [3, 4] "TestSchema" 2 4 (by decide) (by decide)
      (by decide)).1,
   (lost_genesis_race_converges [3, 4] "TestSchema" 2 4 (by decide) (by decide)
      (by decide)).2.2⟩

/-- C4: for a snapshot with no duplicate table names whose foreign keys stay
inside the snapshot, `sortTableDependencies` succeeds exactly on acyclic
foreign-key graphs; a successful result is a permutation of the input in which
every table referenced by a foreign key appears before every table that
references it, and a snapshot containing a foreign-key cycle is rejected with
an error instead of an order. -/
theorem sortTableDependencies_topological (ts : List TableDef)
    (hnodup : (ts.map TableDef.name).Nodup)
    (hclosed : ∀ t ∈ ts, ∀ tgt ∈ t.fkTargets, tgt ∈ ts.map TableDef.name) :
    (¬CyclicDep ts → ∃ out, sortTableDependencies ts = .ok out
        ∧ DepOrdered out ∧ out.Perm ts)
    ∧ (CyclicDep ts → sortTableDependencies ts = .error cyclicDependenciesMsg) := by
  constructor
  · intro hacyc
    cases hres : sortTableDependencies ts with
    | error msg =>
      exfalso
      obtain ⟨S, hne, hsub, hcyc⟩ := kahnLoop_error_cycle ts.length [] ts (le_refl _)
        (by simpa using hnodup) (by simpa using hclosed) msg hres
      exact hacyc ⟨S, hne, hsub, hcyc⟩
    | ok out =>
      obtain ⟨hPair, hClosedOut, hSelfOut, hperm⟩ := kahnLoop_sound ts.length [] ts out
        List.Pairwise.nil (by simp) (by simp) (by simpa using hnodup) hres
      rw [List.nil_append] at hperm
      refine ⟨out, rfl, ?_, hperm⟩
      intro pre t suf hout tgt htgt
      subst hout
      have htmem : tgt ∈ (pre ++ t :: suf).map TableDef.name :=
        hClosedOut t (by simp) tgt htgt
      rw [List.map_append, List.mem_append] at htmem
      rcases htmem with h | h
      · exact h
      · rw [List.map_cons, List.mem_cons] at h
        rcases h with h | h
        · exact absurd (h ▸ htgt) (hSelfOut t (by simp))
        · obtain ⟨u, hu, huname⟩ := List.mem_map.mp h
          have hps := (List.pairwise_append.mp hPair).2.1
          have hrel := (List.pairwise_cons.mp hps).1 u hu
          refine absurd ?_ hrel
          rw [huname]
          exact htgt
  · rintro ⟨S, hne, hsub, hcyc⟩
    exact kahnLoop_cycle_error ts.length [] ts S hne hsub hcyc (by simpa using hnodup)

/-- C4 witness: two mutually referencing tables are rejected with the cycle
error. -/
theorem sortTableDependencies_topological_witness :
    sortTableDependencies [⟨"a", ["b"]⟩, ⟨"b", ["a"]⟩]
      = .error cyclicDependenciesMsg :=
  (sortTableDependencies_topological [⟨"a", ["b"]⟩, ⟨"b", ["a"]⟩] (by decide) (by decide)).2
    ⟨[⟨"a", ["b"]⟩, ⟨"b", ["a"]⟩], by decide, by decide, by decide⟩

/-- C2 (code_bug evidence): `migrateLatest` determines its target with
JavaScript's comparator-less `Array.prototype.sort`, which orders the version
keys by their decimal strings.  For the keys `{2,…,10}` the last element of
the sorted array is `9`, not the numeric maximum `10` (which
`getLatestMigrationVersion` computes), so from a schema at version 1 with all
steps present `migrateLatest` stops after step 9 while
`migrateToVersion(max)` would run step 10 as well. -/
theorem migrateLatest_lexicographic_sort_divergence :
    jsDefaultSort [2, 3, 4, 5, 6, 7, 8, 9, 10] = [10, 2, 3, 4, 5, 6, 7, 8, 9]
    ∧ getLatestMigrationVersion [2, 3, 4, 5, 6, 7, 8, 9, 10] = 10
    ∧ migrateLatest [2, 3, 4, 5, 6, 7, 8, 9, 10] ⟨some ⟨1, false⟩, 1, true, []⟩
        = (⟨some ⟨9, false⟩, 9, true, [2, 3, 4, 5, 6, 7, 8, 9]⟩, none)
    ∧ migrateToVersion [2, 3, 4, 5, 6, 7, 8, 9, 10] 10 ⟨some ⟨1, false⟩, 1, true, []⟩
        = (⟨some ⟨10, false⟩, 10, true, [2, 3, 4, 5, 6, 7, 8, 9, 10]⟩, none) :=
  ⟨by decide, by decide, by decide, by decide⟩

/-- C5: inside `init`'s transaction exactly the errors whose message contains
`duplicate key value violates unique constraint` are suppressed — `init` then
completes without error and marks the schema initialized; every other error
propagates and leaves the instance uninitialized; and a second `init` on an
already-initialized instance fails with the "already been initialized"
error. -/
theorem init_duplicate_key_suppression (name msg : String) (migs : List Nat)
    (s : MigState) (env : InitEnv) :
    (s.isInitialized = false →
      strContainsB "duplicate key value violates unique constraint" msg = true →
      init name migs (.fault msg) s = ({ s with isInitialized := true }, none))
    ∧ (s.isInitialized = false →
      strContainsB "duplicate key value violates unique constraint" msg = false →
      init name migs (.fault msg) s = (s, some msg))
    ∧ (s.isInitialized = true →
      init name migs env s
        = (s, some ("Database schema " ++ name ++ " has already been initialized."))) := by
  refine ⟨fun h0 hc => ?_, fun h0 hc => ?_, fun h1 => ?_⟩
  · simp [init, h0, hc]
  · simp [init, h0, hc]
  · simp [init, h1]

/-- C6: `SQL.createTable` fails with the "Primary Key(s) missing" error — and
produces no DDL text — exactly when no column of the table has primary-key
membership; with at least one primary-key column it returns DDL. -/
theorem createTable_primary_key_required (name : String) (columns : List (String × Column)) :
    ((∀ e ∈ columns, e.2.primaryKey ≠ some true) →
      createTable name columns
        = .error ("Primary Key(s) missing. Cannot create table " ++ name ++ "."))
    ∧ ((∃ e ∈ columns, e.2.primaryKey = some true) →
      ∃ ddl, createTable name columns = .ok ddl) := by
  constructor
  · intro h
    have hfil : columns.filter (fun e => e.2.primaryKey == some true) = [] := by
      rw [List.filter_eq_nil_iff]
      intro a ha
      simpa using h a ha
    simp [createTable, hfil]
  · rintro ⟨e, he, hpk⟩
    have hfil : ¬(columns.filter (fun e => e.2.primaryKey == some true)).isEmpty = true := by
      simp only [List.isEmpty_iff, List.filter_eq_nil_iff]
      intro h
      exact h e he (by simpa using hpk)
    simp only [createTable, hfil, if_false]
    exact ⟨_, rfl⟩

/-- C7: when `SQL.createTable` succeeds, the generated text contains the
composite primary-key constraint named `PK_<table>_<col1>_<col2>…` over the
primary-key column names, one foreign-key constraint named
`<table>_<column>_fkey` for each declared reference, and — per column flagged
`unique` or `createIndex` — a `CREATE [UNIQUE] INDEX IF NOT EXISTS` statement
named `<table>_<column>_uindex` for unique columns and `<table>_<column>_index`
otherwise. -/
theorem createTable_constraint_and_index_naming (name : String)
    (columns : List (String × Column)) (ddl : String)
    (hok : createTable name columns = .ok ddl) :
    strOccurs ("CONSTRAINT PK_" ++ name ++ "_"
        ++ joinSep "_" ((columns.filter fun e => e.2.primaryKey == some true).map fun e => e.1)
        ++ " PRIMARY KEY") ddl
    ∧ (∀ fkc ∈ collectForeignKeyConstraints columns,
        strOccurs ("CONSTRAINT " ++ name ++ "_" ++ fkc.column ++ "_fkey") ddl)
    ∧ (∀ e ∈ columns, e.2.unique = some true →
        strOccurs ("CREATE UNIQUE INDEX IF NOT EXISTS " ++ name ++ "_" ++ e.1 ++ "_uindex") ddl)
    ∧ (∀ e ∈ columns, e.2.unique ≠ some true → e.2.createIndex = some true →
        strOccurs ("CREATE INDEX IF NOT EXISTS " ++ name ++ "_" ++ e.1 ++ "_index") ddl) := by
  have hpkne : ¬(columns.filter fun e => e.2.primaryKey == some true).isEmpty = true := by
    intro hemp
    simp [createTable, hemp] at hok
  simp only [createTable, if_neg hpkne, Except.ok.injEq] at hok
  subst hok
  refine ⟨?_, ?_, ?_, ?_⟩
  · have heqpk : "CONSTRAINT PK_" ++ name ++ "_"
        ++ joinSep "_" ((columns.filter fun e => e.2.primaryKey == some true).map fun e => e.1)
        ++ " PRIMARY KEY ("
        ++ joinSep "," ((columns.filter fun e => e.2.primaryKey == some true).map
            fun e => "\"" ++ e.1 ++ "\"")
        ++ ")"
        = ("CONSTRAINT PK_" ++ name ++ "_"
            ++ joinSep "_" ((columns.filter fun e => e.2.primaryKey == some true).map
                fun e => e.1)
            ++ " PRIMARY KEY")
          ++ (" ("
            ++ joinSep "," ((columns.filter fun e => e.2.primaryKey == some true).map
                fun e => "\"" ++ e.1 ++ "\"")
            ++ ")") := by
      rw [show (" PRIMARY KEY (" : String) = " PRIMARY KEY" ++ " (" by decide]
      simp only [String.append_assoc]
    have hmem : "CONSTRAINT PK_" ++ name ++ "_"
        ++ joinSep "_" ((columns.filter fun e => e.2.primaryKey == some true).map fun e => e.1)
        ++ " PRIMARY KEY ("
        ++ joinSep "," ((columns.filter fun e => e.2.primaryKey == some true).map
            fun e => "\"" ++ e.1 ++ "\"")
        ++ ")"
        ∈ (columns.map fun e => prepareCreateColumnStatement e.1 e.2)
          ++ ["CONSTRAINT PK_" ++ name ++ "_"
              ++ joinSep "_" ((columns.filter fun e => e.2.primaryKey == some true).map
                  fun e => e.1)
              ++ " PRIMARY KEY ("
              ++ joinSep "," ((columns.filter fun e => e.2.primaryKey == some true).map
                  fun e => "\"" ++ e.1 ++ "\"")
              ++ ")"]
          ++ (prepareForeignKeyConstraintStatements name
              (collectForeignKeyConstraints columns)).map fun stmt => "CONSTRAINT " ++ stmt :=
      List.mem_append_left _ (List.mem_append_right _ (List.mem_cons_self _ _))
    apply strOccurs_append_right
    apply strOccurs_append_right
    apply strOccurs_append_right
    apply strOccurs_append_left
    apply strOccurs_append_right
    apply strOccurs_append_left
    exact strOccurs_trans (strOccurs_of_eq_append _ heqpk) (strOccurs_joinSep ",\n" hmem)
  · intro fkc hfkc
    have heqfk : name ++ "_" ++ fkc.column ++ "_fkey"
        ++ "\n\t\t\tFOREIGN KEY (" ++ fkc.column ++ ") REFERENCES " ++ fkc.targetTable
        ++ " (" ++ fkc.targetColumn ++ ")"
        ++ "\n\t\t\t"
        ++ (match fkc.onDelete with
            | some r => mapUpdateDeleteRule r false
            | none => "")
        ++ "\n\t\t\t"
        ++ (match fkc.onUpdate with
            | some r => mapUpdateDeleteRule r true
            | none => "")
        = (name ++ "_" ++ fkc.column ++ "_fkey")
          ++ ("\n\t\t\tFOREIGN KEY (" ++ fkc.column ++ ") REFERENCES " ++ fkc.targetTable
            ++ " (" ++ fkc.targetColumn ++ ")"
            ++ "\n\t\t\t"
            ++ (match fkc.onDelete with
                | some r => mapUpdateDeleteRule r false
                | none => "")
            ++ "\n\t\t\t"
            ++ (match fkc.onUpdate with
                | some r => mapUpdateDeleteRule r true
                | none => "")) := by
      simp only [String.append_assoc]
    have heqc : "CONSTRAINT "
          ++ (name ++ "_" ++ fkc.column ++ "_fkey"
            ++ "\n\t\t\tFOREIGN KEY (" ++ fkc.column ++ ") REFERENCES " ++ fkc.targetTable
            ++ " (" ++ fkc.targetColumn ++ ")"
            ++ "\n\t\t\t"
            ++ (match fkc.onDelete with
                | some r => mapUpdateDeleteRule r false
                | none => "")
            ++ "\n\t\t\t"
            ++ (match fkc.onUpdate with
                | some r => mapUpdateDeleteRule r true
                | none => ""))
        = ("CONSTRAINT " ++ name ++ "_" ++ fkc.column ++ "_fkey")
          ++ ("\n\t\t\tFOREIGN KEY (" ++ fkc.column ++ ") REFERENCES " ++ fkc.targetTable
            ++ " (" ++ fkc.targetColumn ++ ")"
            ++ "\n\t\t\t"
            ++ (match fkc.onDelete with
                | some r => mapUpdateDeleteRule r false
                | none => "")
            ++ "\n\t\t\t"
            ++ (match fkc.onUpdate with
                | some r => mapUpdateDeleteRule r true
                | none => "")) := by
      rw [heqfk]
      simp only [String.append_assoc]
    have hmem : "CONSTRAINT "
          ++ (name ++ "_" ++ fkc.column ++ "_fkey"
            ++ "\n\t\t\tFOREIGN KEY (" ++ fkc.column ++ ") REFERENCES " ++ fkc.targetTable
            ++ " (" ++ fkc.targetColumn ++ ")"
            ++ "\n\t\t\t"
            ++ (match fkc.onDelete with
                | some r => mapUpdateDeleteRule r false
                | none => "")
            ++ "\n\t\t\t"
            ++ (match fkc.onUpdate with
                | some r => mapUpdateDeleteRule r true
                | none => ""))
        ∈ (columns.map fun e => prepareCreateColumnStatement e.1 e.2)
          ++ ["CONSTRAINT PK_" ++ name ++ "_"
              ++ joinSep "_" ((columns.filter fun e => e.2.primaryKey == some true).map
                  fun e => e.1)
              ++ " PRIMARY KEY ("
              ++ joinSep "," ((columns.filter fun e => e.2.primaryKey == some true).map
                  fun e => "\"" ++ e.1 ++ "\"")
              ++ ")"]
          ++ (prepareForeignKeyConstraintStatements name
              (collectForeignKeyConstraints columns)).map fun stmt => "CONSTRAINT " ++ stmt :=
      List.mem_append_right _
        (List.mem_map_of_mem _ (List.mem_map_of_mem _ hfkc))
    apply strOccurs_append_right
    apply strOccurs_append_right
    apply strOccurs_append_right
    apply strOccurs_append_left
    apply strOccurs_append_right
    apply strOccurs_append_left
    exact strOccurs_trans (strOccurs_of_eq_append _ heqc) (strOccurs_joinSep ",\n" hmem)
  · intro e he hu
    have hb : (e.2.unique == some true) = true := by simp [hu]
    have hmem : createIndex (e.2.unique == some true) name e.1
        ∈ (columns.filter fun e => e.2.unique == some true || e.2.createIndex == some true).map
            fun e => createIndex (e.2.unique == some true) name e.1 :=
      List.mem_map_of_mem _ (List.mem_filter.mpr ⟨he, by simp [hu]⟩)
    rw [hb] at hmem
    have heqi : createIndex true name e.1
        = ("CREATE UNIQUE INDEX IF NOT EXISTS " ++ name ++ "_" ++ e.1 ++ "_uindex")
          ++ (" ON " ++ name ++ " (" ++ e.1 ++ ");") := by
      show "CREATE " ++ "UNIQUE " ++ "INDEX IF NOT EXISTS "
          ++ name ++ "_" ++ e.1 ++ "_" ++ "u" ++ "index ON "
          ++ name ++ " (" ++ e.1 ++ ");" = _
      rw [show ("CREATE UNIQUE INDEX IF NOT EXISTS " : String)
            = "CREATE " ++ "UNIQUE " ++ "INDEX IF NOT EXISTS " by decide,
        show ("_uindex" : String) = "_" ++ "u" ++ "index" by decide,
        show ("index ON " : String) = "index" ++ " ON " by decide]
      simp only [String.append_assoc]
    apply strOccurs_append_right
    apply strOccurs_append_left
    exact strOccurs_trans (strOccurs_of_eq_append _ heqi) (strOccurs_joinSep "\n" hmem)
  · intro e he hu hc
    have hb : (e.2.unique == some true) = false := by
      simp only [beq_eq_false_iff_ne, ne_eq]
      exact hu
    have hmem : createIndex (e.2.unique == some true) name e.1
        ∈ (columns.filter fun e => e.2.unique == some true || e.2.createIndex == some true).map
            fun e => createIndex (e.2.unique == some true) name e.1 :=
      List.mem_map_of_mem _ (List.mem_filter.mpr ⟨he, by simp [hc]⟩)
    rw [hb] at hmem
    have heqi : createIndex false name e.1
        = ("CREATE INDEX IF NOT EXISTS " ++ name ++ "_" ++ e.1 ++ "_index")
          ++ (" ON " ++ name ++ " (" ++ e.1 ++ ");") := by
      show "CREATE " ++ "" ++ "INDEX IF NOT EXISTS "
          ++ name ++ "_" ++ e.1 ++ "_" ++ "" ++ "index ON "
          ++ name ++ " (" ++ e.1 ++ ");" = _
      rw [show ("CREATE " : String) ++ "" = "CREATE " by decide,
        String.append_empty,
        show ("CREATE INDEX IF NOT EXISTS " : String)
            = "CREATE " ++ "INDEX IF NOT EXISTS " by decide,
        show ("_index" : String) = "_" ++ "index" by decide,
        show ("index ON " : String) = "index" ++ " ON " by decide]
      simp only [String.append_assoc]
    apply strOccurs_append_right
    apply strOccurs_append_left
    exact strOccurs_trans (strOccurs_of_eq_append _ heqi) (strOccurs_joinSep "\n" hmem)

/-- C7 witness: a concrete table `t` with single primary-key unique column
`id` — the generated DDL contains the `PK_t_id` primary-key constraint (and,
as the text shows, the `t_id_uindex` unique index). -/
theorem createTable_constraint_and_index_naming_witness :
    strOccurs "CONSTRAINT PK_t_id PRIMARY KEY"
      "\n\t\t\t\t\n                CREATE TABLE IF NOT EXISTS t (\n\t\t\t\t\"id\" INTEGER ,\nCONSTRAINT PK_t_id PRIMARY KEY (\"id\")\n            );\n\t\t\n\t\t\t\tCREATE UNIQUE INDEX IF NOT EXISTS t_id_uindex ON t (id);\n\t\t\t" :=
  (createTable_constraint_and_index_naming "t"
    [("id", { type := .plain "integer", primaryKey := some true, unique := some true })]
    "\n\t\t\t\t\n                CREATE TABLE IF NOT EXISTS t (\n\t\t\t\t\"id\" INTEGER ,\nCONSTRAINT PK_t_id PRIMARY KEY (\"id\")\n            );\n\t\t\n\t\t\t\tCREATE UNIQUE INDEX IF NOT EXISTS t_id_uindex ON t (id);\n\t\t\t"
    (by rfl)).1

/-- C8: `addRequiredColumn` joins, with `"\n"`, a statement sequence whose
first element adds the column with `nullable` forced to `true`, whose middle
is the caller-supplied backfill statements in their given order, and whose
strictly last element is the `ALTER … SET NOT NULL` enforcement. -/
theorem addRequiredColumn_statement_order (table column : String) (col : Column)
    (updates : List String) :
    (addRequiredColumnParts table column col updates).head?
        = some (addTableColumn table column { col with nullable := some true } true)
    ∧ (∀ i, i < updates.length →
        (addRequiredColumnParts table column col updates)[i + 1]? = updates[i]?)
    ∧ (addRequiredColumnParts table column col updates).getLast?
        = some ("ALTER TABLE " ++ table ++ " ALTER COLUMN " ++ column ++ " SET NOT NULL;")
    ∧ (addRequiredColumnParts table column col updates).length = updates.length + 2
    ∧ addRequiredColumn table column col updates
        = joinSep "\n" (addRequiredColumnParts table column col updates) := by
  refine ⟨rfl, fun i hi => ?_, ?_, by simp [addRequiredColumnParts], rfl⟩
  · simp only [addRequiredColumnParts, List.cons_append, List.nil_append,
      List.getElem?_cons_succ]
    exact List.getElem?_append_left hi
  · show (([addTableColumn table column { col with nullable := some true } true] ++ updates)
      ++ ["ALTER TABLE " ++ table ++ " ALTER COLUMN " ++ column
            ++ " SET NOT NULL;"]).getLast? = _
    rw [List.getLast?_concat]

/-- C10: `NoAction` and `Restrict` referential-action rules render as the
empty string, so a foreign-key constraint with `Restrict` is textually
identical to one with `NoAction` and to one with the rule omitted, in both the
on-delete and the on-update slot; only `Cascade`, `SetNull` and `SetDefault`
produce an `ON DELETE` / `ON UPDATE` clause. -/
theorem restrict_noaction_produce_no_action_clause (u : Bool) (t c tt tc : String)
    (od ou : Option ForeignKeyUpdateDeleteRule) (r : ForeignKeyUpdateDeleteRule) :
    (mapUpdateDeleteRule r u = "" ↔ r = .noAction ∨ r = .restrict)
    ∧ prepareForeignKeyConstraintStatements t [⟨c, tt, tc, some .restrict, ou⟩]
        = prepareForeignKeyConstraintStatements t [⟨c, tt, tc, some .noAction, ou⟩]
    ∧ prepareForeignKeyConstraintStatements t [⟨c, tt, tc, some .restrict, ou⟩]
        = prepareForeignKeyConstraintStatements t [⟨c, tt, tc, none, ou⟩]
    ∧ prepareForeignKeyConstraintStatements t [⟨c, tt, tc, od, some .restrict⟩]
        = prepareForeignKeyConstraintStatements t [⟨c, tt, tc, od, some .noAction⟩]
    ∧ prepareForeignKeyConstraintStatements t [⟨c, tt, tc, od, some .restrict⟩]
        = prepareForeignKeyConstraintStatements t [⟨c, tt, tc, od, none⟩]
    ∧ strOccurs ("ON " ++ (if u then "UPDATE" else "DELETE"))
        (mapUpdateDeleteRule .cascade u)
    ∧ strOccurs ("ON " ++ (if u then "UPDATE" else "DELETE"))
        (mapUpdateDeleteRule .setNull u)
    ∧ strOccurs ("ON " ++ (if u then "UPDATE" else "DELETE"))
        (mapUpdateDeleteRule .setDefault u) := by
  refine ⟨?_, rfl, rfl, rfl, rfl, ?_, ?_, ?_⟩
  · cases r <;> cases u <;> decide
  · cases u <;> exact ⟨[], " CASCADE".data, by decide⟩
  · cases u <;> exact ⟨[], " SET NULL".data, by decide⟩
  · cases u <;> exact ⟨[], " SET DEFAULT".data, by decide⟩

end PSB
